import Mathlib

/-!
Shallow embedding of the PNG-Image-Compressor quadtree
(`src/qtree.h`, `src/qtree-private.h`, `src/qtree.cpp`).

Modelling conventions:
  * a raster image is a total function from coordinates to pixels (`Img`);
    the PNG canvas that `Render` allocates is such a function that is
    constant at the canvas background colour;
  * the C++ `Node*` pointer is the inductive `NodeP`, with `NodeP.null`
    playing the role of the null pointer;
  * `unsigned int` coordinates are `Nat`; on the in-bounds trees the claims
    quantify over, every subtraction in the source stays non-negative, so
    `Nat` truncated subtraction agrees with the machine arithmetic;
  * the C++ `int` channel accumulators are `Int`, and C++ `/` on `int`
    (truncation toward zero) is `Int.tdiv`;
  * the C++ `double` alpha channel is modelled exactly as `ℚ` (every
    operation the source performs on it is addition, multiplication by a
    small natural number and one division);
  * the in-place mutating traversals (`flipHorizontal`, `rotateCCW`,
    `pruneSt`) are modelled as functions returning the mutated tree, and
    the image mutation of `draw`/`renderNode` is explicit state passing of
    the canvas function.
-/

/-- Pixel type of the external `imgUtil::RGBAPixel` collaborator: three
integer colour channels and one continuous alpha channel. -/
structure RGBAPixel where
  r : Int
  g : Int
  b : Int
  a : ℚ
  deriving DecidableEq, Repr

/-- A raster image: a total assignment of a pixel to every coordinate. -/
abbrev Img : Type := Nat → Nat → RGBAPixel

/-- The C++ `Node*`: either the null pointer or a `Node` with the corner
coordinates, average colour and four child pointers of `qtree.h`. -/
inductive NodeP where
  | null : NodeP
  | node (upLeft lowRight : Nat × Nat) (avg : RGBAPixel) ( NW NE SW SE : NodeP) : NodeP
  deriving DecidableEq, Repr

namespace NodeP

/-- Null test on a node pointer (`nd == nullptr`). -/
def isNull : NodeP → Bool
  | .null => true
  | .node _ _ _ _ _ _ _ => false

/-- The `avg` field of a non-null node (junk value on the null pointer,
which the source never dereferences). -/
def avgOf : NodeP → RGBAPixel
  | .null => ⟨0, 0, 0, 0⟩
  | .node _ _ a _ _ _ _ => a

/-- The `upLeft` field of a non-null node. -/
def ulOf : NodeP → Nat × Nat
  | .null => (0, 0)
  | .node ul _ _ _ _ _ _ => ul

/-- The `lowRight` field of a non-null node. -/
def lrOf : NodeP → Nat × Nat
  | .null => (0, 0)
  | .node _ lr _ _ _ _ _ => lr

/-- The leaf test used throughout `qtree.cpp`:
`!nd->NW && !nd->NE && !nd->SW && !nd->SE`. -/
def isLeaf : NodeP → Bool
  | .null => false
  | .node _ _ _ nw ne sw se => isNull nw && isNull ne && isNull sw && isNull se

/-- Number of pixels of a node's rectangle (`(lr.x - ul.x + 1) * (lr.y - ul.y + 1)`). -/
def areaOf : NodeP → Nat
  | .null => 0
  | .node ul lr _ _ _ _ _ => (lr.1 - ul.1 + 1) * (lr.2 - ul.2 + 1)

end NodeP

open NodeP

/-- Fuel-indexed embedding of `QTree::BuildNode` (`qtree.cpp` lines 148-229).
The structural recursion is on the explicit `fuel` argument; `buildNode`
below supplies fuel strictly larger than the recursion depth measure
`(lr.x - ul.x) + (lr.y - ul.y)`, which every lemma shows is enough for the
fuel to never run out.  Apart from the fuel, the body is a line-by-line
transcription of the C++ function. -/
def buildNodeF (img : Img) : Nat → Nat × Nat → Nat × Nat → NodeP
  | 0, _, _ => .null
  | fuel + 1, ul, lr =>
    if ul = lr then
      .node ul lr (img ul.1 ul.2) .null .null .null .null
    else
      let midX := (ul.1 + lr.1) / 2
      let midY := (ul.2 + lr.2) / 2
      let nw := buildNodeF img fuel ul (midX, midY)
      let ne := if lr.1 = ul.1 then NodeP.null
                else buildNodeF img fuel (midX + 1, ul.2) (lr.1, midY)
      let sw := if lr.1 = ul.1 then buildNodeF img fuel (ul.1, midY + 1) (midX, lr.2)
                else if ul.2 ≠ lr.2 then buildNodeF img fuel (ul.1, midY + 1) (midX, lr.2)
                else NodeP.null
      let se := if lr.1 = ul.1 then NodeP.null
                else if ul.2 ≠ lr.2 then buildNodeF img fuel (midX + 1, midY + 1) lr
                else NodeP.null
      let areaNW := (midX - ul.1 + 1) * (midY - ul.2 + 1)
      let areaNE := (lr.1 - (midX + 1) + 1) * (midY - ul.2 + 1)
      let areaSW := (midX - ul.1 + 1) * (lr.2 - (midY + 1) + 1)
      let areaSE := (lr.1 - (midX + 1) + 1) * (lr.2 - (midY + 1) + 1)
      let totalArea := (lr.1 - ul.1 + 1) * (lr.2 - ul.2 + 1)
      let totalR : Int := (if isNull nw then 0 else (avgOf nw).r * areaNW)
                        + (if isNull ne then 0 else (avgOf ne).r * areaNE)
                        + (if isNull sw then 0 else (avgOf sw).r * areaSW)
                        + (if isNull se then 0 else (avgOf se).r * areaSE)
      let totalG : Int := (if isNull nw then 0 else (avgOf nw).g * areaNW)
                        + (if isNull ne then 0 else (avgOf ne).g * areaNE)
                        + (if isNull sw then 0 else (avgOf sw).g * areaSW)
                        + (if isNull se then 0 else (avgOf se).g * areaSE)
      let totalB : Int := (if isNull nw then 0 else (avgOf nw).b * areaNW)
                        + (if isNull ne then 0 else (avgOf ne).b * areaNE)
                        + (if isNull sw then 0 else (avgOf sw).b * areaSW)
                        + (if isNull se then 0 else (avgOf se).b * areaSE)
      let totalA : ℚ := (if isNull nw then 0 else (avgOf nw).a * areaNW)
                      + (if isNull ne then 0 else (avgOf ne).a * areaNE)
                      + (if isNull sw then 0 else (avgOf sw).a * areaSW)
                      + (if isNull se then 0 else (avgOf se).a * areaSE)
      .node ul lr
        ⟨Int.tdiv totalR totalArea, Int.tdiv totalG totalArea,
         Int.tdiv totalB totalArea, totalA / (totalArea : ℚ)⟩
        nw ne sw se

/-- Fuel needed to build the rectangle `[ul, lr]`: the recursion depth
measure plus one. -/
def rectFuel (ul lr : Nat × Nat) : Nat := (lr.1 - ul.1) + (lr.2 - ul.2) + 1

/-- `QTree::BuildNode` with its fuel instantiated (sufficient for the whole
recursion, see the fuel lemmas below). -/
def buildNode (img : Img) (ul lr : Nat × Nat) : NodeP :=
  buildNodeF img (rectFuel ul lr) ul lr

/-- Embedding of `QTree::draw` (`qtree.cpp` lines 250-256): overwrite the
`scale × scale` block of pixels whose upper-left corner is
`(startX, startY)` with `color`, leaving every other pixel unchanged. -/
def draw (img : Img) (startX startY scale : Nat) (color : RGBAPixel) : Img :=
  fun px py =>
    if startX ≤ px ∧ px < startX + scale ∧ startY ≤ py ∧ py < startY + scale then color
    else img px py

/-- Embedding of `QTree::renderNode` (`qtree.cpp` lines 235-248): at a leaf,
draw a `scale × scale` block at `upLeft * scale`; otherwise render the four
children in the order NW, NE, SW, SE, each drawing on the canvas left by
the previous one. -/
def renderNode : NodeP → Img → Nat → Img
  | .null, img, _ => img
  | .node ul _ avg nw ne sw se, img, scale =>
    if isNull nw && isNull ne && isNull sw && isNull se then
      draw img (ul.1 * scale) (ul.2 * scale) scale avg
    else
      renderNode se (renderNode sw (renderNode ne (renderNode nw img scale) scale) scale) scale

/-- Embedding of `QTree::leavesUnderTol` (`qtree.cpp` lines 351-362),
parametric in the distance function of the external `RGBAPixel`
collaborator (`node->avg.distanceTo(avg) <= tolerance`). -/
def leavesUnderTol (dist : RGBAPixel → RGBAPixel → ℚ) (tolerance : ℚ) (avg : RGBAPixel) :
    NodeP → Bool
  | .null => true
  | .node _ _ a nw ne sw se =>
    if isNull nw && isNull ne && isNull sw && isNull se then
      decide (dist a avg ≤ tolerance)
    else
      leavesUnderTol dist tolerance avg nw && leavesUnderTol dist tolerance avg ne &&
      leavesUnderTol dist tolerance avg sw && leavesUnderTol dist tolerance avg se

/-- Embedding of `QTree::pruneSt` (`qtree.cpp` lines 331-349); the effect of
`clearSt` (detaching and freeing all four subtrees) is setting the four
child pointers of the collapsed node to null. -/
def pruneSt (dist : RGBAPixel → RGBAPixel → ℚ) (tolerance : ℚ) : NodeP → NodeP
  | .null => .null
  | .node ul lr a nw ne sw se =>
    if isNull nw && isNull ne && isNull sw && isNull se then
      .node ul lr a nw ne sw se
    else if leavesUnderTol dist tolerance a (.node ul lr a nw ne sw se) then
      .node ul lr a .null .null .null .null
    else
      .node ul lr a (pruneSt dist tolerance nw) (pruneSt dist tolerance ne)
        (pruneSt dist tolerance sw) (pruneSt dist tolerance se)

/-- Embedding of `QTree::flipHorizontal` (`qtree.cpp` lines 258-277):
swap NW with NE and SW with SE, mirror the horizontal extent across the
image width (normalising the corner order if needed), then recurse into
the already-swapped children. -/
def flipHorizontal (width : Nat) : NodeP → NodeP
  | .null => .null
  | .node ul lr a nw ne sw se =>
    let newLx := width - 1 - lr.1
    let newRx := width - 1 - ul.1
    let xs := if newLx > newRx then (newRx, newLx) else (newLx, newRx)
    .node (xs.1, ul.2) (xs.2, lr.2) a
      (flipHorizontal width ne) (flipHorizontal width nw)
      (flipHorizontal width se) (flipHorizontal width sw)

/-- Embedding of `QTree::rotateCCW` (`qtree.cpp` lines 279-300), with `hgt`
the value of the `height` member during the traversal (the pre-rotation
width, since `QTree::RotateCCW` swaps the members before recursing):
children are remapped NW←NE, NE←SE, SW←NW, SE←SW and the corners become
`(upLeft.y, hgt - lowRight.x - 1)` and `(lowRight.y, hgt - upLeft.x - 1)`. -/
def rotateCCW (hgt : Nat) : NodeP → NodeP
  | .null => .null
  | .node ul lr a nw ne sw se =>
    .node (ul.2, hgt - lr.1 - 1) (lr.2, hgt - ul.1 - 1) a
      (rotateCCW hgt ne) (rotateCCW hgt se) (rotateCCW hgt nw) (rotateCCW hgt sw)

/-- Modelled from the spec: `QTree::CountNodes` is declared GIVEN in
`qtree.h` but its body is not in `src/`; per the spec it is the read-only
count of all nodes of the tree. -/
def countNodes : NodeP → Nat
  | .null => 0
  | .node _ _ _ nw ne sw se =>
    1 + countNodes nw + countNodes ne + countNodes sw + countNodes se

/-- Modelled from the spec: `QTree::CountLeaves` is declared GIVEN in
`qtree.h` but its body is not in `src/`; per the spec it is the read-only
count of the leaves (nodes with all four children absent). -/
def countLeaves : NodeP → Nat
  | .null => 0
  | .node _ _ _ nw ne sw se =>
    if isNull nw && isNull ne && isNull sw && isNull se then 1
    else countLeaves nw + countLeaves ne + countLeaves sw + countLeaves se

/-- The `QTree` object: the root pointer and the `width`/`height` members. -/
structure QTree where
  root : NodeP
  width : Nat
  height : Nat
  deriving DecidableEq, Repr

/-- The constructor `QTree::QTree(const PNG&)`: record the image dimensions
and build the tree over the full rectangle `[(0,0), (width-1, height-1)]`. -/
def QTree.ofImage (img : Img) (w h : Nat) : QTree :=
  { root := buildNode img (0, 0) (w - 1, h - 1), width := w, height := h }

/-- `QTree::Render`: a fresh canvas of size `(width*scale, height*scale)`
whose pixels are all the canvas background colour `bg` of the external PNG
collaborator, painted by `renderNode`.  Returns the canvas dimensions
together with the painted canvas. -/
def QTree.Render (t : QTree) (bg : RGBAPixel) (scale : Nat) : (Nat × Nat) × Img :=
  ((t.width * scale, t.height * scale), renderNode t.root (fun _ _ => bg) scale)

/-- `QTree::Prune`, parametric in the pixel distance function. -/
def QTree.Prune (t : QTree) (dist : RGBAPixel → RGBAPixel → ℚ) (tolerance : ℚ) : QTree :=
  { t with root := pruneSt dist tolerance t.root }

/-- `QTree::FlipHorizontal`. -/
def QTree.FlipHorizontal (t : QTree) : QTree :=
  { t with root := flipHorizontal t.width t.root }

/-- `QTree::RotateCCW`: swap the `width`/`height` members, then rotate the
nodes; the traversal reads the post-swap `height` member, whose value is
the pre-rotation width. -/
def QTree.RotateCCW (t : QTree) : QTree :=
  { root := rotateCCW t.width t.root, width := t.height, height := t.width }

/-- Modelled from the spec: the `RGBAPixel::distanceTo` metric of the
external collaborator is specified only as a symmetric non-negative
distance that is zero exactly on equal pixels; the squared Euclidean
distance over the four channels is such a metric and is used to
instantiate the parametric prune embedding on concrete inputs. -/
def sqDist (p q : RGBAPixel) : ℚ :=
  ((p.r - q.r : ℚ))^2 + ((p.g - q.g : ℚ))^2 + ((p.b - q.b : ℚ))^2 + (p.a - q.a)^2

/-! ### Spec-side predicates and brute-force reference computations -/

/-- Per-node bounds invariant of a `QTree` over a `w × h` image: every node
has a properly ordered rectangle lying inside the image. -/
def boundedNodes (w h : Nat) : NodeP → Bool
  | .null => true
  | .node ul lr _ nw ne sw se =>
    decide (ul.1 ≤ lr.1) && decide (ul.2 ≤ lr.2) && decide (lr.1 < w) && decide (lr.2 < h)
      && boundedNodes w h nw && boundedNodes w h ne && boundedNodes w h sw
      && boundedNodes w h se

/-- Every leaf of the tree is a single pixel (`upLeft = lowRight`). -/
def singlePixelLeaves : NodeP → Bool
  | .null => true
  | .node ul lr _ nw ne sw se =>
    if isNull nw && isNull ne && isNull sw && isNull se then decide (ul = lr)
    else singlePixelLeaves nw && singlePixelLeaves ne && singlePixelLeaves sw
      && singlePixelLeaves se

/-- Upper-left corners of the leaves, in the NW, NE, SW, SE traversal order. -/
def leafULs : NodeP → List (Nat × Nat)
  | .null => []
  | .node ul _ _ nw ne sw se =>
    if isNull nw && isNull ne && isNull sw && isNull se then [ul]
    else leafULs nw ++ leafULs ne ++ leafULs sw ++ leafULs se

/-- The colour `renderNode` leaves at a pixel at scale 1: the colour of the
last leaf drawn there (children are painted NW, NE, SW, SE, so in the
right-to-left alternative chain the SE subtree wins), or none if no leaf
paints the pixel. -/
def paintAt : NodeP → Nat × Nat → Option RGBAPixel
  | .null, _ => none
  | .node ul _ a nw ne sw se, p =>
    if isNull nw && isNull ne && isNull sw && isNull se then
      if ul = p then some a else none
    else
      paintAt se p <|> paintAt sw p <|> paintAt ne p <|> paintAt nw p

/-- Number of leaves whose rectangle contains the point `p`. -/
def coverCount : NodeP → Nat × Nat → Nat
  | .null, _ => 0
  | .node ul lr _ nw ne sw se, p =>
    if isNull nw && isNull ne && isNull sw && isNull se then
      if ul.1 ≤ p.1 ∧ p.1 ≤ lr.1 ∧ ul.2 ≤ p.2 ∧ p.2 ≤ lr.2 then 1 else 0
    else coverCount nw p + coverCount ne p + coverCount sw p + coverCount se p

/-- Does the pointer hold a node with exactly the given corners? -/
def hasRect : NodeP → Nat × Nat → Nat × Nat → Bool
  | .null, _, _ => false
  | .node ul lr _ _ _ _ _, u, l => decide (ul = u) && decide (lr = l)

/-- The precise split rule of the spec, checked at every internal node:
1-pixel-wide rectangles split only into NW/SW, 1-pixel-tall only into
NW/NE, all others into four children, with the floor-division midpoints
`midX = (ul.x + lr.x) / 2`, `midY = (ul.y + lr.y) / 2` putting odd
leftovers in the upper/left side. -/
def splitOK : NodeP → Bool
  | .null => true
  | .node ul lr _ nw ne sw se =>
    (if isNull nw && isNull ne && isNull sw && isNull se then true
     else
       let midX := (ul.1 + lr.1) / 2
       let midY := (ul.2 + lr.2) / 2
       if ul.1 = lr.1 then
         hasRect nw ul (midX, midY) && hasRect sw (ul.1, midY + 1) (midX, lr.2)
           && isNull ne && isNull se
       else if ul.2 = lr.2 then
         hasRect nw ul (midX, midY) && hasRect ne (midX + 1, ul.2) (lr.1, midY)
           && isNull sw && isNull se
       else
         hasRect nw ul (midX, midY) && hasRect ne (midX + 1, ul.2) (lr.1, midY)
           && hasRect sw (ul.1, midY + 1) (midX, lr.2)
           && hasRect se (midX + 1, midY + 1) lr)
    && splitOK nw && splitOK ne && splitOK sw && splitOK se

/-- Red-channel contribution of a child per the spec's averaging formula:
`child.avg_channel * child.area`, zero for an absent child. -/
def contribR : NodeP → Int
  | .null => 0
  | .node ul lr a _ _ _ _ => a.r * (((lr.1 - ul.1 + 1) * (lr.2 - ul.2 + 1) : Nat) : Int)

/-- Green-channel contribution of a child (see `contribR`). -/
def contribG : NodeP → Int
  | .null => 0
  | .node ul lr a _ _ _ _ => a.g * (((lr.1 - ul.1 + 1) * (lr.2 - ul.2 + 1) : Nat) : Int)

/-- Blue-channel contribution of a child (see `contribR`). -/
def contribB : NodeP → Int
  | .null => 0
  | .node ul lr a _ _ _ _ => a.b * (((lr.1 - ul.1 + 1) * (lr.2 - ul.2 + 1) : Nat) : Int)

/-- Alpha-channel contribution of a child (see `contribR`). -/
def contribA : NodeP → ℚ
  | .null => 0
  | .node ul lr a _ _ _ _ => a.a * (((lr.1 - ul.1 + 1) * (lr.2 - ul.2 + 1) : Nat) : ℚ)

/-- The spec's averaging formula, checked at every internal node: each
integer channel is `sum(child.avg_channel * child.area) / totalArea` with
truncating integer division, the alpha channel is the same sum with exact
division, `totalArea` being the area of the node's own rectangle and the
sum ranging over the present children. -/
def avgOK : NodeP → Bool
  | .null => true
  | .node ul lr a nw ne sw se =>
    (if isNull nw && isNull ne && isNull sw && isNull se then true
     else
       decide (a.r = Int.tdiv (contribR nw + contribR ne + contribR sw + contribR se)
              (((lr.1 - ul.1 + 1) * (lr.2 - ul.2 + 1) : Nat) : Int)) &&
       decide (a.g = Int.tdiv (contribG nw + contribG ne + contribG sw + contribG se)
              (((lr.1 - ul.1 + 1) * (lr.2 - ul.2 + 1) : Nat) : Int)) &&
       decide (a.b = Int.tdiv (contribB nw + contribB ne + contribB sw + contribB se)
              (((lr.1 - ul.1 + 1) * (lr.2 - ul.2 + 1) : Nat) : Int)) &&
       decide (a.a = (contribA nw + contribA ne + contribA sw + contribA se) /
              (((lr.1 - ul.1 + 1) * (lr.2 - ul.2 + 1) : Nat) : ℚ)))
    && avgOK nw && avgOK ne && avgOK sw && avgOK se

/-- All points of the inclusive rectangle `[ul, lr]`. -/
def rectPts (ul lr : Nat × Nat) : List (Nat × Nat) :=
  ((List.range (lr.1 - ul.1 + 1)).map (fun dx =>
    (List.range (lr.2 - ul.2 + 1)).map (fun dy => (ul.1 + dx, ul.2 + dy)))).flatten

/-- Brute-force per-channel mean of the source pixels of `[ul, lr]`:
direct scan of the raster, integer channels truncated, alpha exact. -/
def bruteAvg (img : Img) (ul lr : Nat × Nat) : RGBAPixel :=
  ⟨Int.tdiv (((rectPts ul lr).map (fun p => (img p.1 p.2).r)).sum)
      (((lr.1 - ul.1 + 1) * (lr.2 - ul.2 + 1) : Nat) : Int),
   Int.tdiv (((rectPts ul lr).map (fun p => (img p.1 p.2).g)).sum)
      (((lr.1 - ul.1 + 1) * (lr.2 - ul.2 + 1) : Nat) : Int),
   Int.tdiv (((rectPts ul lr).map (fun p => (img p.1 p.2).b)).sum)
      (((lr.1 - ul.1 + 1) * (lr.2 - ul.2 + 1) : Nat) : Int),
   (((rectPts ul lr).map (fun p => (img p.1 p.2).a)).sum) /
      (((lr.1 - ul.1 + 1) * (lr.2 - ul.2 + 1) : Nat) : ℚ)⟩

/-- Reflexive-transitive reachability along child pointers: `Subnode s t`
holds when `s` is a node of the tree rooted at `t`. -/
inductive Subnode : NodeP → NodeP → Prop where
  | refl (t : NodeP) : Subnode t t
  | viaNW {s ul lr a nw ne sw se} : Subnode s nw → Subnode s (.node ul lr a nw ne sw se)
  | viaNE {s ul lr a nw ne sw se} : Subnode s ne → Subnode s (.node ul lr a nw ne sw se)
  | viaSW {s ul lr a nw ne sw se} : Subnode s sw → Subnode s (.node ul lr a nw ne sw se)
  | viaSE {s ul lr a nw ne sw se} : Subnode s se → Subnode s (.node ul lr a nw ne sw se)

/-! ### Concrete inputs used by counterexamples, failing inputs and witnesses -/

/-- The spec's concrete 2×2 scenario image:
`[(255,0,0,1),(0,255,0,1)],[(0,0,255,1),(255,255,0,1)]`. -/
def img2x2c : Img := fun x y =>
  if x = 0 ∧ y = 0 then ⟨255, 0, 0, 1⟩
  else if x = 1 ∧ y = 0 then ⟨0, 255, 0, 1⟩
  else if x = 0 ∧ y = 1 then ⟨0, 0, 255, 1⟩
  else ⟨255, 255, 0, 1⟩

/-- A 1×4 column image whose red channel reads 1, 0, 3, 0 from top to
bottom. -/
def strip14 : Img := fun _ y =>
  if y = 0 then ⟨1, 0, 0, 1⟩
  else if y = 2 then ⟨3, 0, 0, 1⟩
  else ⟨0, 0, 0, 1⟩

/-- Opaque black. -/
def blackPix : RGBAPixel := ⟨0, 0, 0, 1⟩

/-- Opaque white (the background colour a fresh PNG canvas is filled
with). -/
def whitePix : RGBAPixel := ⟨255, 255, 255, 1⟩

/-- An all-black image. -/
def blackImg : Img := fun _ _ => blackPix

/-! ### Basic helper lemmas about the transforms -/

theorem isNull_flip (w : Nat) (t : NodeP) : isNull (flipHorizontal w t) = isNull t := by
  cases t <;> rfl

theorem isNull_rot (hgt : Nat) (t : NodeP) : isNull (rotateCCW hgt t) = isNull t := by
  cases t <;> rfl

theorem and_perm_flip (a b c d : Bool) : (b && a && d && c) = (a && b && c && d) := by
  cases a <;> cases b <;> cases c <;> cases d <;> rfl

theorem and_perm_rot (a b c d : Bool) : (b && d && a && c) = (a && b && c && d) := by
  cases a <;> cases b <;> cases c <;> cases d <;> rfl

theorem counts_flip (w : Nat) (t : NodeP) :
    countNodes (flipHorizontal w t) = countNodes t ∧
    countLeaves (flipHorizontal w t) = countLeaves t ∧
    isLeaf (flipHorizontal w t) = isLeaf t := by
  induction t with
  | null => exact ⟨rfl, rfl, rfl⟩
  | node ul lr a nw ne sw se ih1 ih2 ih3 ih4 =>
    refine ⟨?_, ?_, ?_⟩
    · simp only [flipHorizontal, countNodes]
      omega
    · simp only [flipHorizontal, countLeaves, isNull_flip]
      rw [and_perm_flip (isNull nw) (isNull ne) (isNull sw) (isNull se)]
      by_cases h : (isNull nw && isNull ne && isNull sw && isNull se) = true
      · rw [if_pos h, if_pos h]
      · rw [Bool.not_eq_true] at h
        rw [h]
        simp only [Bool.false_eq_true, if_false]
        omega
    · simp only [flipHorizontal, isLeaf, isNull_flip]
      rw [and_perm_flip (isNull nw) (isNull ne) (isNull sw) (isNull se)]

theorem counts_rot (hgt : Nat) (t : NodeP) :
    countNodes (rotateCCW hgt t) = countNodes t ∧
    countLeaves (rotateCCW hgt t) = countLeaves t ∧
    isLeaf (rotateCCW hgt t) = isLeaf t := by
  induction t with
  | null => exact ⟨rfl, rfl, rfl⟩
  | node ul lr a nw ne sw se ih1 ih2 ih3 ih4 =>
    refine ⟨?_, ?_, ?_⟩
    · simp only [rotateCCW, countNodes]
      omega
    · simp only [rotateCCW, countLeaves, isNull_rot]
      rw [and_perm_rot (isNull nw) (isNull ne) (isNull sw) (isNull se)]
      by_cases h : (isNull nw && isNull ne && isNull sw && isNull se) = true
      · rw [if_pos h, if_pos h]
      · rw [Bool.not_eq_true] at h
        rw [h]
        simp only [Bool.false_eq_true, if_false]
        omega
    · simp only [rotateCCW, isLeaf, isNull_rot]
      rw [and_perm_rot (isNull nw) (isNull ne) (isNull sw) (isNull se)]

/-- Extract the component facts of `boundedNodes` at a `node`. -/
theorem boundedNodes_node {w h : Nat} {ul lr : Nat × Nat} {a : RGBAPixel}
    {nw ne sw se : NodeP} (hb : boundedNodes w h (.node ul lr a nw ne sw se) = true) :
    ul.1 ≤ lr.1 ∧ ul.2 ≤ lr.2 ∧ lr.1 < w ∧ lr.2 < h ∧
    boundedNodes w h nw = true ∧ boundedNodes w h ne = true ∧
    boundedNodes w h sw = true ∧ boundedNodes w h se = true := by
  simp only [boundedNodes, Bool.and_eq_true, decide_eq_true_eq] at hb
  exact ⟨hb.1.1.1.1.1.1.1, hb.1.1.1.1.1.1.2, hb.1.1.1.1.1.2, hb.1.1.1.1.2,
    hb.1.1.1.2, hb.1.1.2, hb.1.2, hb.2⟩

/-- One-step unfolding of `flipHorizontal` at an in-bounds node (the
corner-normalising swap never fires because the mirrored extent is already
ordered). -/
theorem flip_node_eq {w : Nat} {ul lr : Nat × Nat} {a : RGBAPixel} {nw ne sw se : NodeP}
    (h1 : ul.1 ≤ lr.1) (h3 : lr.1 < w) :
    flipHorizontal w (.node ul lr a nw ne sw se) =
      .node (w - 1 - lr.1, ul.2) (w - 1 - ul.1, lr.2) a
        (flipHorizontal w ne) (flipHorizontal w nw)
        (flipHorizontal w se) (flipHorizontal w sw) := by
  simp only [flipHorizontal]
  rw [if_neg (by omega)]

/-- Two horizontal flips restore every bounded tree exactly. -/
theorem flip_flip_eq {w h : Nat} : ∀ t : NodeP, boundedNodes w h t = true →
    flipHorizontal w (flipHorizontal w t) = t := by
  intro t
  induction t with
  | null => intro _; rfl
  | node ul lr a nw ne sw se ih1 ih2 ih3 ih4 =>
    intro hb
    obtain ⟨h1, h2, h3, h4, b1, b2, b3, b4⟩ := boundedNodes_node hb
    rw [flip_node_eq h1 h3, flip_node_eq (by omega) (by omega)]
    have e1 : w - 1 - (w - 1 - ul.1) = ul.1 := by omega
    have e2 : w - 1 - (w - 1 - lr.1) = lr.1 := by omega
    rw [e1, e2, ih1 b1, ih2 b2, ih3 b3, ih4 b4]

/-- Four counter-clockwise rotations restore every bounded tree exactly
(the `hgt` parameters alternate between the original width and height, as
they do across four calls of `QTree::RotateCCW`). -/
theorem rot_four_eq {w h : Nat} : ∀ t : NodeP, boundedNodes w h t = true →
    rotateCCW h (rotateCCW w (rotateCCW h (rotateCCW w t))) = t := by
  intro t
  induction t with
  | null => intro _; rfl
  | node ul lr a nw ne sw se ih1 ih2 ih3 ih4 =>
    intro hb
    obtain ⟨h1, h2, h3, h4, b1, b2, b3, b4⟩ := boundedNodes_node hb
    simp only [rotateCCW]
    rw [ih1 b1, ih2 b2, ih3 b3, ih4 b4]
    have e1 : w - (w - ul.1 - 1) - 1 = ul.1 := by omega
    have e2 : w - (w - lr.1 - 1) - 1 = lr.1 := by omega
    have e3 : h - (h - ul.2 - 1) - 1 = ul.2 := by omega
    have e4 : h - (h - lr.2 - 1) - 1 = lr.2 := by omega
    rw [e1, e2, e3, e4]

/-! ### Shape lemmas for `buildNodeF` -/

theorem buildF_not_null (img : Img) (f : Nat) (ul lr : Nat × Nat) :
    isNull (buildNodeF img (f + 1) ul lr) = false := by
  by_cases h : ul = lr <;> simp [buildNodeF, h, isNull]

theorem buildF_ulOf (img : Img) (f : Nat) (ul lr : Nat × Nat) :
    ulOf (buildNodeF img (f + 1) ul lr) = ul := by
  by_cases h : ul = lr <;> simp [buildNodeF, h, ulOf]

theorem buildF_lrOf (img : Img) (f : Nat) (ul lr : Nat × Nat) :
    lrOf (buildNodeF img (f + 1) ul lr) = lr := by
  by_cases h : ul = lr <;> simp [buildNodeF, h, lrOf]

theorem buildF_eq_wide (img : Img) (f : Nat) (ul lr : Nat × Nat)
    (hne : ul ≠ lr) (hx : lr.1 = ul.1) :
    ∃ a, buildNodeF img (f + 1) ul lr =
      .node ul lr a
        (buildNodeF img f ul ((ul.1 + lr.1) / 2, (ul.2 + lr.2) / 2))
        .null
        (buildNodeF img f (ul.1, (ul.2 + lr.2) / 2 + 1) ((ul.1 + lr.1) / 2, lr.2))
        .null := by
  exact ⟨_, by simp only [buildNodeF, if_neg hne, if_pos hx]; rfl⟩

theorem buildF_eq_tall (img : Img) (f : Nat) (ul lr : Nat × Nat)
    (hx : lr.1 ≠ ul.1) (hy : ul.2 = lr.2) :
    ∃ a, buildNodeF img (f + 1) ul lr =
      .node ul lr a
        (buildNodeF img f ul ((ul.1 + lr.1) / 2, (ul.2 + lr.2) / 2))
        (buildNodeF img f ((ul.1 + lr.1) / 2 + 1, ul.2) (lr.1, (ul.2 + lr.2) / 2))
        .null
        .null := by
  have hne : ul ≠ lr := by
    intro hc
    exact hx (by rw [hc])
  exact ⟨_, by simp only [buildNodeF, if_neg hne, if_neg hx, if_neg (not_not_intro hy)]; rfl⟩

theorem buildF_eq_full (img : Img) (f : Nat) (ul lr : Nat × Nat)
    (hx : lr.1 ≠ ul.1) (hy : ul.2 ≠ lr.2) :
    ∃ a, buildNodeF img (f + 1) ul lr =
      .node ul lr a
        (buildNodeF img f ul ((ul.1 + lr.1) / 2, (ul.2 + lr.2) / 2))
        (buildNodeF img f ((ul.1 + lr.1) / 2 + 1, ul.2) (lr.1, (ul.2 + lr.2) / 2))
        (buildNodeF img f (ul.1, (ul.2 + lr.2) / 2 + 1) ((ul.1 + lr.1) / 2, lr.2))
        (buildNodeF img f ((ul.1 + lr.1) / 2 + 1, (ul.2 + lr.2) / 2 + 1) lr) := by
  have hne : ul ≠ lr := by
    intro hc
    apply hx
    rw [hc]
  exact ⟨_, by simp only [buildNodeF, if_neg hne, if_neg hx, if_pos hy]; rfl⟩

/-! ### The built tree is bounded by its rectangle -/

theorem buildF_bounded (img : Img) (w h : Nat) : ∀ (f : Nat) (ul lr : Nat × Nat),
    (lr.1 - ul.1) + (lr.2 - ul.2) < f → ul.1 ≤ lr.1 → ul.2 ≤ lr.2 →
    lr.1 < w → lr.2 < h →
    boundedNodes w h (buildNodeF img f ul lr) = true := by
  intro f
  induction f with
  | zero => intro ul lr hf h1 h2 h3 h4; omega
  | succ f ih =>
    intro ul lr hf h1 h2 h3 h4
    by_cases heq : ul = lr
    · subst heq
      simp [buildNodeF, boundedNodes]
      omega
    · by_cases hx : lr.1 = ul.1
      · obtain ⟨a, hE⟩ := buildF_eq_wide img f ul lr heq hx
        rw [hE]
        have hy : ul.2 ≠ lr.2 := by
          intro hc
          exact heq (Prod.ext (hx.symm) hc)
        simp only [boundedNodes, Bool.and_eq_true, decide_eq_true_eq]
        exact ⟨⟨⟨⟨⟨⟨⟨by omega, by omega⟩, by omega⟩, by omega⟩,
          ih ul ((ul.1 + lr.1) / 2, (ul.2 + lr.2) / 2)
            (by omega) (by omega) (by omega) (by omega) (by omega)⟩, trivial⟩,
          ih (ul.1, (ul.2 + lr.2) / 2 + 1) ((ul.1 + lr.1) / 2, lr.2)
            (by omega) (by omega) (by omega) (by omega) (by omega)⟩, trivial⟩
      · by_cases hy : ul.2 = lr.2
        · obtain ⟨a, hE⟩ := buildF_eq_tall img f ul lr hx hy
          rw [hE]
          simp only [boundedNodes, Bool.and_eq_true, decide_eq_true_eq]
          exact ⟨⟨⟨⟨⟨⟨⟨by omega, by omega⟩, by omega⟩, by omega⟩,
            ih ul ((ul.1 + lr.1) / 2, (ul.2 + lr.2) / 2)
              (by omega) (by omega) (by omega) (by omega) (by omega)⟩,
            ih ((ul.1 + lr.1) / 2 + 1, ul.2) (lr.1, (ul.2 + lr.2) / 2)
              (by omega) (by omega) (by omega) (by omega) (by omega)⟩, trivial⟩, trivial⟩
        · obtain ⟨a, hE⟩ := buildF_eq_full img f ul lr hx hy
          rw [hE]
          simp only [boundedNodes, Bool.and_eq_true, decide_eq_true_eq]
          exact ⟨⟨⟨⟨⟨⟨⟨by omega, by omega⟩, by omega⟩, by omega⟩,
            ih ul ((ul.1 + lr.1) / 2, (ul.2 + lr.2) / 2)
              (by omega) (by omega) (by omega) (by omega) (by omega)⟩,
            ih ((ul.1 + lr.1) / 2 + 1, ul.2) (lr.1, (ul.2 + lr.2) / 2)
              (by omega) (by omega) (by omega) (by omega) (by omega)⟩,
            ih (ul.1, (ul.2 + lr.2) / 2 + 1) ((ul.1 + lr.1) / 2, lr.2)
              (by omega) (by omega) (by omega) (by omega) (by omega)⟩,
            ih ((ul.1 + lr.1) / 2 + 1, (ul.2 + lr.2) / 2 + 1) lr
              (by omega) (by omega) (by omega) (by omega) (by omega)⟩

/-! ### Leaf structure of the built tree -/

theorem isNull_null : isNull NodeP.null = true := rfl

theorem buildF_countLeaves (img : Img) : ∀ (f : Nat) (ul lr : Nat × Nat),
    (lr.1 - ul.1) + (lr.2 - ul.2) < f → ul.1 ≤ lr.1 → ul.2 ≤ lr.2 →
    countLeaves (buildNodeF img f ul lr) = (lr.1 - ul.1 + 1) * (lr.2 - ul.2 + 1) := by
  intro f
  induction f with
  | zero => intro ul lr hf h1 h2; omega
  | succ f ih =>
    intro ul lr hf h1 h2
    by_cases heq : ul = lr
    · subst heq
      simp [buildNodeF, countLeaves, isNull]
    · by_cases hx : lr.1 = ul.1
      · obtain ⟨a, hE⟩ := buildF_eq_wide img f ul lr heq hx
        rw [hE]
        have hy : ul.2 ≠ lr.2 := by
          intro hc
          exact heq (Prod.ext (hx.symm) hc)
        have hfp : ∃ g, f = g + 1 := ⟨f - 1, by omega⟩
        obtain ⟨g, rfl⟩ := hfp
        simp only [countLeaves, buildF_not_null, isNull_null, Bool.true_and, Bool.and_true,
          Bool.false_and, Bool.and_false, Bool.false_eq_true, if_false]
        rw [ih ul ((ul.1 + lr.1) / 2, (ul.2 + lr.2) / 2) (by omega) (by omega) (by omega),
          ih (ul.1, (ul.2 + lr.2) / 2 + 1) ((ul.1 + lr.1) / 2, lr.2)
            (by omega) (by omega) (by omega)]
        simp only [rectFuel]
        have e1 : (ul.1 + lr.1) / 2 = ul.1 := by omega
        rw [e1]
        simp only [Nat.sub_self, Nat.zero_add, zero_add]
        have e2 : lr.1 - ul.1 + 1 = 1 := by omega
        rw [e2]
        omega
      · by_cases hy : ul.2 = lr.2
        · obtain ⟨a, hE⟩ := buildF_eq_tall img f ul lr hx hy
          rw [hE]
          have hfp : ∃ g, f = g + 1 := ⟨f - 1, by omega⟩
          obtain ⟨g, rfl⟩ := hfp
          simp only [countLeaves, buildF_not_null, isNull_null, Bool.true_and, Bool.and_true,
            Bool.false_and, Bool.and_false, Bool.false_eq_true, if_false]
          rw [ih ul ((ul.1 + lr.1) / 2, (ul.2 + lr.2) / 2) (by omega) (by omega) (by omega),
            ih ((ul.1 + lr.1) / 2 + 1, ul.2) (lr.1, (ul.2 + lr.2) / 2)
              (by omega) (by omega) (by omega)]
          have e1 : (ul.2 + lr.2) / 2 = ul.2 := by omega
          rw [e1]
          simp only [Nat.sub_self, Nat.zero_add, zero_add]
          have e2 : lr.2 - ul.2 + 1 = 1 := by omega
          rw [e2]
          omega
        · obtain ⟨a, hE⟩ := buildF_eq_full img f ul lr hx hy
          rw [hE]
          have hfp : ∃ g, f = g + 1 := ⟨f - 1, by omega⟩
          obtain ⟨g, rfl⟩ := hfp
          simp only [countLeaves, buildF_not_null, isNull_null, Bool.true_and, Bool.and_true,
            Bool.false_and, Bool.and_false, Bool.false_eq_true, if_false]
          rw [ih ul ((ul.1 + lr.1) / 2, (ul.2 + lr.2) / 2) (by omega) (by omega) (by omega),
            ih ((ul.1 + lr.1) / 2 + 1, ul.2) (lr.1, (ul.2 + lr.2) / 2)
              (by omega) (by omega) (by omega),
            ih (ul.1, (ul.2 + lr.2) / 2 + 1) ((ul.1 + lr.1) / 2, lr.2)
              (by omega) (by omega) (by omega),
            ih ((ul.1 + lr.1) / 2 + 1, (ul.2 + lr.2) / 2 + 1) lr
              (by omega) (by omega) (by omega)]
          have e1 : lr.1 - ul.1 + 1 =
              ((ul.1 + lr.1) / 2 - ul.1 + 1) + (lr.1 - ((ul.1 + lr.1) / 2 + 1) + 1) := by
            omega
          have e2 : lr.2 - ul.2 + 1 =
              ((ul.2 + lr.2) / 2 - ul.2 + 1) + (lr.2 - ((ul.2 + lr.2) / 2 + 1) + 1) := by
            omega
          rw [e1, e2]
          ring

theorem buildF_coverCount (img : Img) : ∀ (f : Nat) (ul lr : Nat × Nat) (p : Nat × Nat),
    (lr.1 - ul.1) + (lr.2 - ul.2) < f → ul.1 ≤ lr.1 → ul.2 ≤ lr.2 →
    coverCount (buildNodeF img f ul lr) p =
      if ul.1 ≤ p.1 ∧ p.1 ≤ lr.1 ∧ ul.2 ≤ p.2 ∧ p.2 ≤ lr.2 then 1 else 0 := by
  intro f
  induction f with
  | zero => intro ul lr p hf h1 h2; omega
  | succ f ih =>
    intro ul lr p hf h1 h2
    by_cases heq : ul = lr
    · subst heq
      simp [buildNodeF, coverCount, isNull_null]
    · by_cases hx : lr.1 = ul.1
      · obtain ⟨a, hE⟩ := buildF_eq_wide img f ul lr heq hx
        rw [hE]
        have hy : ul.2 ≠ lr.2 := by
          intro hc
          exact heq (Prod.ext (hx.symm) hc)
        obtain ⟨g, rfl⟩ : ∃ g, f = g + 1 := ⟨f - 1, by omega⟩
        simp only [coverCount, buildF_not_null, isNull_null, Bool.true_and, Bool.and_true,
          Bool.false_and, Bool.and_false, Bool.false_eq_true, if_false]
        rw [ih ul ((ul.1 + lr.1) / 2, (ul.2 + lr.2) / 2) p (by omega) (by omega) (by omega),
          ih (ul.1, (ul.2 + lr.2) / 2 + 1) ((ul.1 + lr.1) / 2, lr.2) p
            (by omega) (by omega) (by omega)]
        split_ifs <;> omega
      · by_cases hy : ul.2 = lr.2
        · obtain ⟨a, hE⟩ := buildF_eq_tall img f ul lr hx hy
          rw [hE]
          obtain ⟨g, rfl⟩ : ∃ g, f = g + 1 := ⟨f - 1, by omega⟩
          simp only [coverCount, buildF_not_null, isNull_null, Bool.true_and, Bool.and_true,
            Bool.false_and, Bool.and_false, Bool.false_eq_true, if_false]
          rw [ih ul ((ul.1 + lr.1) / 2, (ul.2 + lr.2) / 2) p (by omega) (by omega) (by omega),
            ih ((ul.1 + lr.1) / 2 + 1, ul.2) (lr.1, (ul.2 + lr.2) / 2) p
              (by omega) (by omega) (by omega)]
          split_ifs <;> omega
        · obtain ⟨a, hE⟩ := buildF_eq_full img f ul lr hx hy
          rw [hE]
          obtain ⟨g, rfl⟩ : ∃ g, f = g + 1 := ⟨f - 1, by omega⟩
          simp only [coverCount, buildF_not_null, isNull_null, Bool.true_and, Bool.and_true,
            Bool.false_and, Bool.and_false, Bool.false_eq_true, if_false]
          rw [ih ul ((ul.1 + lr.1) / 2, (ul.2 + lr.2) / 2) p (by omega) (by omega) (by omega),
            ih ((ul.1 + lr.1) / 2 + 1, ul.2) (lr.1, (ul.2 + lr.2) / 2) p
              (by omega) (by omega) (by omega),
            ih (ul.1, (ul.2 + lr.2) / 2 + 1) ((ul.1 + lr.1) / 2, lr.2) p
              (by omega) (by omega) (by omega),
            ih ((ul.1 + lr.1) / 2 + 1, (ul.2 + lr.2) / 2 + 1) lr p
              (by omega) (by omega) (by omega)]
          split_ifs <;> omega

theorem buildF_singlePixel (img : Img) : ∀ (f : Nat) (ul lr : Nat × Nat),
    (lr.1 - ul.1) + (lr.2 - ul.2) < f → ul.1 ≤ lr.1 → ul.2 ≤ lr.2 →
    singlePixelLeaves (buildNodeF img f ul lr) = true := by
  intro f
  induction f with
  | zero => intro ul lr hf h1 h2; omega
  | succ f ih =>
    intro ul lr hf h1 h2
    by_cases heq : ul = lr
    · subst heq
      simp [buildNodeF, singlePixelLeaves, isNull_null]
    · by_cases hx : lr.1 = ul.1
      · obtain ⟨a, hE⟩ := buildF_eq_wide img f ul lr heq hx
        rw [hE]
        have hy : ul.2 ≠ lr.2 := by
          intro hc
          exact heq (Prod.ext (hx.symm) hc)
        obtain ⟨g, rfl⟩ : ∃ g, f = g + 1 := ⟨f - 1, by omega⟩
        simp only [singlePixelLeaves, buildF_not_null, isNull_null, Bool.true_and,
          Bool.and_true, Bool.false_and, Bool.and_false, Bool.false_eq_true, if_false,
          Bool.and_eq_true]
        exact ⟨ih ul ((ul.1 + lr.1) / 2, (ul.2 + lr.2) / 2) (by omega) (by omega) (by omega),
          ih (ul.1, (ul.2 + lr.2) / 2 + 1) ((ul.1 + lr.1) / 2, lr.2)
            (by omega) (by omega) (by omega)⟩
      · by_cases hy : ul.2 = lr.2
        · obtain ⟨a, hE⟩ := buildF_eq_tall img f ul lr hx hy
          rw [hE]
          obtain ⟨g, rfl⟩ : ∃ g, f = g + 1 := ⟨f - 1, by omega⟩
          simp only [singlePixelLeaves, buildF_not_null, isNull_null, Bool.true_and,
            Bool.and_true, Bool.false_and, Bool.and_false, Bool.false_eq_true, if_false,
            Bool.and_eq_true]
          exact ⟨ih ul ((ul.1 + lr.1) / 2, (ul.2 + lr.2) / 2) (by omega) (by omega)
              (by omega),
            ih ((ul.1 + lr.1) / 2 + 1, ul.2) (lr.1, (ul.2 + lr.2) / 2)
              (by omega) (by omega) (by omega)⟩
        · obtain ⟨a, hE⟩ := buildF_eq_full img f ul lr hx hy
          rw [hE]
          obtain ⟨g, rfl⟩ : ∃ g, f = g + 1 := ⟨f - 1, by omega⟩
          simp only [singlePixelLeaves, buildF_not_null, isNull_null, Bool.true_and,
            Bool.and_true, Bool.false_and, Bool.and_false, Bool.false_eq_true, if_false,
            Bool.and_eq_true]
          exact ⟨⟨⟨ih ul ((ul.1 + lr.1) / 2, (ul.2 + lr.2) / 2) (by omega) (by omega)
              (by omega),
            ih ((ul.1 + lr.1) / 2 + 1, ul.2) (lr.1, (ul.2 + lr.2) / 2)
              (by omega) (by omega) (by omega)⟩,
            ih (ul.1, (ul.2 + lr.2) / 2 + 1) ((ul.1 + lr.1) / 2, lr.2)
              (by omega) (by omega) (by omega)⟩,
            ih ((ul.1 + lr.1) / 2 + 1, (ul.2 + lr.2) / 2 + 1) lr
              (by omega) (by omega) (by omega)⟩

theorem hasRect_build (img : Img) (f : Nat) (ul lr : Nat × Nat) :
    hasRect (buildNodeF img (f + 1) ul lr) ul lr = true := by
  by_cases h : ul = lr <;> simp [buildNodeF, h, hasRect]

theorem buildF_splitOK (img : Img) : ∀ (f : Nat) (ul lr : Nat × Nat),
    (lr.1 - ul.1) + (lr.2 - ul.2) < f → ul.1 ≤ lr.1 → ul.2 ≤ lr.2 →
    splitOK (buildNodeF img f ul lr) = true := by
  intro f
  induction f with
  | zero => intro ul lr hf h1 h2; omega
  | succ f ih =>
    intro ul lr hf h1 h2
    by_cases heq : ul = lr
    · subst heq
      simp [buildNodeF, splitOK, isNull_null]
    · by_cases hx : lr.1 = ul.1
      · obtain ⟨a, hE⟩ := buildF_eq_wide img f ul lr heq hx
        rw [hE]
        have hy : ul.2 ≠ lr.2 := by
          intro hc
          exact heq (Prod.ext (hx.symm) hc)
        obtain ⟨g, rfl⟩ : ∃ g, f = g + 1 := ⟨f - 1, by omega⟩
        simp only [splitOK, buildF_not_null, isNull_null, hasRect_build, if_pos hx.symm,
          Bool.true_and, Bool.and_true, Bool.false_and, Bool.and_false, Bool.false_eq_true,
          if_false, Bool.and_eq_true]
        exact ⟨ih ul ((ul.1 + lr.1) / 2, (ul.2 + lr.2) / 2) (by omega) (by omega) (by omega),
          ih (ul.1, (ul.2 + lr.2) / 2 + 1) ((ul.1 + lr.1) / 2, lr.2)
            (by omega) (by omega) (by omega)⟩
      · by_cases hy : ul.2 = lr.2
        · obtain ⟨a, hE⟩ := buildF_eq_tall img f ul lr hx hy
          rw [hE]
          obtain ⟨g, rfl⟩ : ∃ g, f = g + 1 := ⟨f - 1, by omega⟩
          simp only [splitOK, buildF_not_null, isNull_null, hasRect_build,
            if_neg (fun hc => hx (Eq.symm hc)), if_pos hy, Bool.true_and, Bool.and_true,
            Bool.false_and, Bool.and_false, Bool.false_eq_true, if_false, Bool.and_eq_true]
          exact ⟨ih ul ((ul.1 + lr.1) / 2, (ul.2 + lr.2) / 2) (by omega) (by omega)
              (by omega),
            ih ((ul.1 + lr.1) / 2 + 1, ul.2) (lr.1, (ul.2 + lr.2) / 2)
              (by omega) (by omega) (by omega)⟩
        · obtain ⟨a, hE⟩ := buildF_eq_full img f ul lr hx hy
          rw [hE]
          obtain ⟨g, rfl⟩ : ∃ g, f = g + 1 := ⟨f - 1, by omega⟩
          simp only [splitOK, buildF_not_null, isNull_null, hasRect_build,
            if_neg (fun hc => hx (Eq.symm hc)), if_neg hy, Bool.true_and, Bool.and_true,
            Bool.false_and, Bool.and_false, Bool.false_eq_true, if_false, Bool.and_eq_true]
          exact ⟨⟨⟨ih ul ((ul.1 + lr.1) / 2, (ul.2 + lr.2) / 2) (by omega) (by omega)
              (by omega),
            ih ((ul.1 + lr.1) / 2 + 1, ul.2) (lr.1, (ul.2 + lr.2) / 2)
              (by omega) (by omega) (by omega)⟩,
            ih (ul.1, (ul.2 + lr.2) / 2 + 1) ((ul.1 + lr.1) / 2, lr.2)
              (by omega) (by omega) (by omega)⟩,
            ih ((ul.1 + lr.1) / 2 + 1, (ul.2 + lr.2) / 2 + 1) lr
              (by omega) (by omega) (by omega)⟩

/-! ### Rendering a freshly built tree at scale 1 -/

theorem renderF_eq (img : Img) : ∀ (f : Nat) (ul lr : Nat × Nat),
    (lr.1 - ul.1) + (lr.2 - ul.2) < f → ul.1 ≤ lr.1 → ul.2 ≤ lr.2 →
    ∀ (cv : Img) (x y : Nat),
    renderNode (buildNodeF img f ul lr) cv 1 x y =
      if ul.1 ≤ x ∧ x ≤ lr.1 ∧ ul.2 ≤ y ∧ y ≤ lr.2 then img x y else cv x y := by
  intro f
  induction f with
  | zero => intro ul lr hf h1 h2; omega
  | succ f ih =>
    intro ul lr hf h1 h2 cv x y
    by_cases heq : ul = lr
    · subst heq
      simp [buildNodeF, renderNode, draw, isNull_null, Nat.mul_one]
      split_ifs <;>
        first
          | rfl
          | omega
          | (have e1 : x = ul.1 := by omega
             have e2 : y = ul.2 := by omega
             rw [e1, e2])
    · by_cases hx : lr.1 = ul.1
      · obtain ⟨a, hE⟩ := buildF_eq_wide img f ul lr heq hx
        rw [hE]
        have hy : ul.2 ≠ lr.2 := by
          intro hc
          exact heq (Prod.ext (hx.symm) hc)
        obtain ⟨g, rfl⟩ : ∃ g, f = g + 1 := ⟨f - 1, by omega⟩
        simp only [renderNode, buildF_not_null, isNull_null, Bool.true_and, Bool.and_true,
          Bool.false_and, Bool.and_false, Bool.false_eq_true, if_false]
        rw [ih (ul.1, (ul.2 + lr.2) / 2 + 1) ((ul.1 + lr.1) / 2, lr.2)
            (by omega) (by omega) (by omega),
          ih ul ((ul.1 + lr.1) / 2, (ul.2 + lr.2) / 2) (by omega) (by omega) (by omega)]
        split_ifs <;> first | rfl | omega
      · by_cases hy : ul.2 = lr.2
        · obtain ⟨a, hE⟩ := buildF_eq_tall img f ul lr hx hy
          rw [hE]
          obtain ⟨g, rfl⟩ : ∃ g, f = g + 1 := ⟨f - 1, by omega⟩
          simp only [renderNode, buildF_not_null, isNull_null, Bool.true_and, Bool.and_true,
            Bool.false_and, Bool.and_false, Bool.false_eq_true, if_false]
          rw [ih ((ul.1 + lr.1) / 2 + 1, ul.2) (lr.1, (ul.2 + lr.2) / 2)
              (by omega) (by omega) (by omega),
            ih ul ((ul.1 + lr.1) / 2, (ul.2 + lr.2) / 2) (by omega) (by omega) (by omega)]
          split_ifs <;> first | rfl | omega
        · obtain ⟨a, hE⟩ := buildF_eq_full img f ul lr hx hy
          rw [hE]
          obtain ⟨g, rfl⟩ : ∃ g, f = g + 1 := ⟨f - 1, by omega⟩
          simp only [renderNode, buildF_not_null, isNull_null, Bool.true_and, Bool.and_true,
            Bool.false_and, Bool.and_false, Bool.false_eq_true, if_false]
          rw [ih ((ul.1 + lr.1) / 2 + 1, (ul.2 + lr.2) / 2 + 1) lr
              (by omega) (by omega) (by omega),
            ih (ul.1, (ul.2 + lr.2) / 2 + 1) ((ul.1 + lr.1) / 2, lr.2)
              (by omega) (by omega) (by omega),
            ih ((ul.1 + lr.1) / 2 + 1, ul.2) (lr.1, (ul.2 + lr.2) / 2)
              (by omega) (by omega) (by omega),
            ih ul ((ul.1 + lr.1) / 2, (ul.2 + lr.2) / 2) (by omega) (by omega) (by omega)]
          split_ifs <;> first | rfl | omega

/-! ### Claim C3: render identity on a freshly built tree -/

/-- C3: for every raster with `width ≥ 1` and `height ≥ 1` (and any canvas
background), `Render(1)` on the freshly built, unpruned tree returns a
raster of the source dimensions that agrees with the source raster pixel
for pixel. -/
theorem C3_render1_identity (img : Img) (w h : Nat) (bg : RGBAPixel)
    (hw : 1 ≤ w) (hh : 1 ≤ h) :
    ((QTree.ofImage img w h).Render bg 1).1 = (w, h) ∧
    ∀ x y : Nat, x < w → y < h →
      ((QTree.ofImage img w h).Render bg 1).2 x y = img x y := by
  constructor
  · simp [QTree.Render, QTree.ofImage]
  · intro x y hx hy
    simp only [QTree.Render, QTree.ofImage, buildNode, rectFuel]
    rw [renderF_eq img (w - 1 - 0 + (h - 1 - 0) + 1) (0, 0) (w - 1, h - 1)
        (by omega) (by omega) (by omega)]
    rw [if_pos (by omega)]

/-- C3 witness: the 2×2 concrete image round-trips through build and
render. -/
theorem C3_witness :
    (1 ≤ 2 ∧ 1 ≤ 2) ∧ ((QTree.ofImage img2x2c 2 2).Render whitePix 1).2 1 0 = img2x2c 1 0 :=
  ⟨⟨by decide, by decide⟩,
    (C3_render1_identity img2x2c 2 2 whitePix (by decide) (by decide)).2 1 0
      (by decide) (by decide)⟩

/-! ### Claim C6: split rule, tiling and leaf count of the built tree -/

/-- C6: for every raster with `width ≥ 1` and `height ≥ 1`, the built tree
follows the precise split rule (`splitOK`), every leaf is a single pixel,
every node rectangle is properly ordered and inside the image, the leaf
rectangles cover every image pixel exactly once and nothing outside the
image, and the number of leaves is `width * height`. -/
theorem C6_build_tiling (img : Img) (w h : Nat) (hw : 1 ≤ w) (hh : 1 ≤ h) :
    splitOK (QTree.ofImage img w h).root = true ∧
    singlePixelLeaves (QTree.ofImage img w h).root = true ∧
    boundedNodes w h (QTree.ofImage img w h).root = true ∧
    (∀ x y : Nat, coverCount (QTree.ofImage img w h).root (x, y) =
      if x < w ∧ y < h then 1 else 0) ∧
    countLeaves (QTree.ofImage img w h).root = w * h := by
  simp only [QTree.ofImage, buildNode, rectFuel]
  refine ⟨?_, ?_, ?_, ?_, ?_⟩
  · exact buildF_splitOK img (w - 1 - 0 + (h - 1 - 0) + 1) (0, 0) (w - 1, h - 1)
      (by omega) (by omega) (by omega)
  · exact buildF_singlePixel img (w - 1 - 0 + (h - 1 - 0) + 1) (0, 0) (w - 1, h - 1)
      (by omega) (by omega) (by omega)
  · exact buildF_bounded img w h (w - 1 - 0 + (h - 1 - 0) + 1) (0, 0) (w - 1, h - 1)
      (by omega) (by omega) (by omega) (by omega) (by omega)
  · intro x y
    rw [buildF_coverCount img (w - 1 - 0 + (h - 1 - 0) + 1) (0, 0) (w - 1, h - 1) (x, y)
        (by omega) (by omega) (by omega)]
    by_cases hc : x < w ∧ y < h
    · rw [if_pos (by omega), if_pos hc]
    · rw [if_neg (by omega), if_neg hc]
  · rw [buildF_countLeaves img (w - 1 - 0 + (h - 1 - 0) + 1) (0, 0) (w - 1, h - 1)
        (by omega) (by omega) (by omega)]
    have e1 : w - 1 - 0 + 1 = w := by omega
    have e2 : h - 1 - 0 + 1 = h := by omega
    rw [e1, e2]

/-- C6 witness: the tiling statement instantiated on the concrete 2×2
image. -/
theorem C6_witness :
    (1 ≤ 2 ∧ 1 ≤ 2) ∧ countLeaves (QTree.ofImage img2x2c 2 2).root = 2 * 2 :=
  ⟨⟨by decide, by decide⟩,
    (C6_build_tiling img2x2c 2 2 (by decide) (by decide)).2.2.2.2⟩

/-! ### Claim C10: the transforms preserve node and leaf counts -/

/-- C10: `FlipHorizontal` and `RotateCCW` each preserve the total node
count and the total leaf count of every tree, and preserve the
leaf/internal status of the root (and hence, by the same equations applied
to any subtree, of every node). -/
theorem C10_counts_preserved (T : QTree) :
    countNodes T.FlipHorizontal.root = countNodes T.root ∧
    countLeaves T.FlipHorizontal.root = countLeaves T.root ∧
    isLeaf T.FlipHorizontal.root = isLeaf T.root ∧
    countNodes T.RotateCCW.root = countNodes T.root ∧
    countLeaves T.RotateCCW.root = countLeaves T.root ∧
    isLeaf T.RotateCCW.root = isLeaf T.root :=
  ⟨(counts_flip T.width T.root).1, (counts_flip T.width T.root).2.1,
    (counts_flip T.width T.root).2.2, (counts_rot T.width T.root).1,
    (counts_rot T.width T.root).2.1, (counts_rot T.width T.root).2.2⟩

/-! ### Claim C9: two flips render identically -/

/-- C9: on every tree whose nodes are properly ordered and in bounds
(which holds for built trees and is preserved by prune, flip and rotate),
two `FlipHorizontal` calls restore the tree exactly, so the rendered
raster (any scale, any background) is identical pixel for pixel. -/
theorem C9_flip_involution (T : QTree)
    (hb : boundedNodes T.width T.height T.root = true) :
    T.FlipHorizontal.FlipHorizontal = T ∧
    ∀ (bg : RGBAPixel) (scale x y : Nat),
      (T.FlipHorizontal.FlipHorizontal.Render bg scale).2 x y =
        (T.Render bg scale).2 x y := by
  have hroot : T.FlipHorizontal.FlipHorizontal = T := by
    show QTree.mk (flipHorizontal T.width (flipHorizontal T.width T.root))
      T.width T.height = T
    rw [flip_flip_eq T.root hb]
  exact ⟨hroot, fun bg scale x y => by rw [hroot]⟩

/-- C9 witness: the flip involution on the built (and bounded) concrete
2×2 tree. -/
theorem C9_witness :
    boundedNodes (QTree.ofImage img2x2c 2 2).width (QTree.ofImage img2x2c 2 2).height
      (QTree.ofImage img2x2c 2 2).root = true ∧
    ((QTree.ofImage img2x2c 2 2).FlipHorizontal.FlipHorizontal.Render whitePix 1).2 0 0 =
      ((QTree.ofImage img2x2c 2 2).Render whitePix 1).2 0 0 :=
  ⟨by decide, (C9_flip_involution (QTree.ofImage img2x2c 2 2) (by decide)).2 whitePix 1 0 0⟩

/-! ### Claim C7: the corner remap of RotateCCW -/

theorem subnode_rot (hgt : Nat) {s t : NodeP} (h : Subnode s t) :
    Subnode (rotateCCW hgt s) (rotateCCW hgt t) := by
  induction h with
  | refl => exact Subnode.refl _
  | viaNW h ih => exact Subnode.viaSW ih
  | viaNE h ih => exact Subnode.viaNW ih
  | viaSW h ih => exact Subnode.viaSE ih
  | viaSE h ih => exact Subnode.viaNE ih

/-- C7 (amended): every node of the tree is remapped by `RotateCCW` into a
node of the rotated tree whose corners are recomputed from the
pre-rotation width (the value the `height` member holds after the swap):
`newUpLeft = (oldUpLeft.y, width - oldLowRight.x - 1)`,
`newLowRight = (oldLowRight.y, width - oldUpLeft.x - 1)`. -/
theorem C7_rotate_corners (T : QTree) (nd : NodeP) (hs : Subnode nd T.root)
    (hn : isNull nd = false) :
    Subnode (rotateCCW T.width nd) T.RotateCCW.root ∧
    ulOf (rotateCCW T.width nd) = ((ulOf nd).2, T.width - (lrOf nd).1 - 1) ∧
    lrOf (rotateCCW T.width nd) = ((lrOf nd).2, T.width - (ulOf nd).1 - 1) := by
  refine ⟨subnode_rot T.width hs, ?_, ?_⟩ <;>
    cases nd with
    | null => simp [isNull] at hn
    | node ul lr a nw ne sw se => rfl

/-- C7 counterexample: on the 3×2 all-black build, the root's new
`lowRight` after `RotateCCW` is `(1, 2)`, while the claim's formula
`(oldLowRight.y, height - oldUpLeft.x - 1)` with the pre-rotation height
`2` yields `(1, 1)`. -/
theorem C7_counterexample :
    lrOf (QTree.ofImage blackImg 3 2).RotateCCW.root = (1, 2) ∧
    ((lrOf (QTree.ofImage blackImg 3 2).root).2,
      (QTree.ofImage blackImg 3 2).height - (ulOf (QTree.ofImage blackImg 3 2).root).1 - 1)
      = (1, 1) ∧
    ((1, 2) : Nat × Nat) ≠ (1, 1) := by decide

/-- C7 witness: the amended corner formula applied to the root of the 3×2
build. -/
theorem C7_witness :
    isNull (QTree.ofImage blackImg 3 2).root = false ∧
    lrOf (rotateCCW (QTree.ofImage blackImg 3 2).width (QTree.ofImage blackImg 3 2).root) =
      ((lrOf (QTree.ofImage blackImg 3 2).root).2,
        (QTree.ofImage blackImg 3 2).width - (ulOf (QTree.ofImage blackImg 3 2).root).1 - 1) :=
  ⟨by decide,
    (C7_rotate_corners (QTree.ofImage blackImg 3 2) (QTree.ofImage blackImg 3 2).root
      (Subnode.refl _) (by decide)).2.2⟩

/-! ### Paint semantics of scale-1 rendering -/

theorem opt_none_orElse (x : Option RGBAPixel) : (none <|> x) = x := rfl

theorem opt_orElse_none (x : Option RGBAPixel) : (x <|> none) = x := by
  cases x <;> rfl

theorem opt_getD_orElse (a b : Option RGBAPixel) (c : RGBAPixel) :
    (a <|> b).getD c = a.getD (b.getD c) := by
  cases a <;> rfl

/-- Occurrences of a point in a list of points. -/
def countPt (p : Nat × Nat) : List (Nat × Nat) → Nat
  | [] => 0
  | q :: l => (if q = p then 1 else 0) + countPt p l

/-- No point occurs twice in the list. -/
def nodupPts : List (Nat × Nat) → Bool
  | [] => true
  | q :: l => decide (countPt q l = 0) && nodupPts l

theorem countPt_append (p : Nat × Nat) (l1 l2 : List (Nat × Nat)) :
    countPt p (l1 ++ l2) = countPt p l1 + countPt p l2 := by
  induction l1 with
  | nil => simp only [List.nil_append, countPt, Nat.zero_add]
  | cons q l ih =>
    rw [List.cons_append]
    simp only [countPt]
    rw [ih]
    omega

theorem nodupPts_count (l : List (Nat × Nat)) (hl : nodupPts l = true) (p : Nat × Nat) :
    countPt p l ≤ 1 := by
  induction l with
  | nil => exact Nat.zero_le 1
  | cons q l ih =>
    simp only [nodupPts, Bool.and_eq_true, decide_eq_true_eq] at hl
    simp only [countPt]
    by_cases hq : q = p
    · subst hq
      rw [hl.1]
      simp
    · rw [if_neg hq, Nat.zero_add]
      exact ih hl.2

/-- At scale 1 the rendered colour of a pixel is the painted colour when
some leaf paints it, and the canvas colour otherwise. -/
theorem render_paint : ∀ (t : NodeP) (cv : Img) (x y : Nat),
    renderNode t cv 1 x y = (paintAt t (x, y)).getD (cv x y) := by
  intro t
  induction t with
  | null => intro cv x y; rfl
  | node ul lr a nw ne sw se ih1 ih2 ih3 ih4 =>
    intro cv x y
    by_cases hL : (isNull nw && isNull ne && isNull sw && isNull se) = true
    · simp only [renderNode, paintAt, if_pos hL, draw, Nat.mul_one]
      by_cases hc : ul = (x, y)
      · rw [if_pos hc, if_pos (by rw [hc]; refine ⟨by omega, by omega, by omega, by omega⟩)]
        rfl
      · rw [if_neg hc, if_neg (fun hcond => hc (Prod.ext (by omega) (by omega)))]
        rfl
    · simp only [renderNode, paintAt, if_neg hL]
      rw [ih4, ih3, ih2, ih1, opt_getD_orElse, opt_getD_orElse, opt_getD_orElse]

/-- A point painted by no leaf gets no colour. -/
theorem paint_none : ∀ (t : NodeP) (p : Nat × Nat),
    countPt p (leafULs t) = 0 → paintAt t p = none := by
  intro t
  induction t with
  | null => intro p _; rfl
  | node ul lr a nw ne sw se ih1 ih2 ih3 ih4 =>
    intro p hp
    by_cases hL : (isNull nw && isNull ne && isNull sw && isNull se) = true
    · simp only [leafULs, if_pos hL, countPt] at hp
      simp only [paintAt, if_pos hL]
      rw [if_neg (fun hc => by rw [hc] at hp; simp at hp)]
    · simp only [leafULs, if_neg hL, countPt_append] at hp
      simp only [paintAt, if_neg hL]
      rw [ih1 p (by omega), ih2 p (by omega), ih3 p (by omega), ih4 p (by omega)]
      rfl

theorem isNull_eq_null {c : NodeP} (hc : isNull c = true) : c = NodeP.null := by
  cases c
  · rfl
  · simp [isNull] at hc

theorem singlePixel_leafcase {ul lr : Nat × Nat} {a : RGBAPixel} {nw ne sw se : NodeP}
    (hL : (isNull nw && isNull ne && isNull sw && isNull se) = true)
    (hsp : singlePixelLeaves (.node ul lr a nw ne sw se) = true) : ul = lr := by
  simp only [singlePixelLeaves, hL, if_true, decide_eq_true_eq] at hsp
  exact hsp

theorem singlePixel_children {ul lr : Nat × Nat} {a : RGBAPixel} {nw ne sw se : NodeP}
    (hL : (isNull nw && isNull ne && isNull sw && isNull se) = false)
    (hsp : singlePixelLeaves (.node ul lr a nw ne sw se) = true) :
    singlePixelLeaves nw = true ∧ singlePixelLeaves ne = true ∧
    singlePixelLeaves sw = true ∧ singlePixelLeaves se = true := by
  simp only [singlePixelLeaves, hL, Bool.false_eq_true, if_false, Bool.and_eq_true] at hsp
  exact ⟨hsp.1.1.1, hsp.1.1.2, hsp.1.2, hsp.2⟩

/-- Rotating remaps the painted colour of each pixel through the inverse
of the counter-clockwise coordinate map, provided leaves are single pixels,
nodes are in bounds and no pixel is painted twice. -/
theorem paint_rot (w h : Nat) : ∀ (t : NodeP), boundedNodes w h t = true →
    singlePixelLeaves t = true → ∀ (x y : Nat), y < w →
    countPt (w - 1 - y, x) (leafULs t) ≤ 1 →
    paintAt (rotateCCW w t) (x, y) = paintAt t (w - 1 - y, x) := by
  intro t
  induction t with
  | null => intro _ _ x y _ _; rfl
  | node ul lr a nw ne sw se ih1 ih2 ih3 ih4 =>
    intro hb hsp x y hy hcnt
    obtain ⟨hb1, hb2, hb3, hb4, hbnw, hbne, hbsw, hbse⟩ := boundedNodes_node hb
    by_cases hL : (isNull nw && isNull ne && isNull sw && isNull se) = true
    · have hlr : ul = lr := singlePixel_leafcase hL hsp
      subst hlr
      obtain ⟨e1, e2, e3, e4⟩ :
          nw = NodeP.null ∧ ne = NodeP.null ∧ sw = NodeP.null ∧ se = NodeP.null := by
        simp only [Bool.and_eq_true] at hL
        exact ⟨isNull_eq_null hL.1.1.1, isNull_eq_null hL.1.1.2,
          isNull_eq_null hL.1.2, isNull_eq_null hL.2⟩
      subst e1; subst e2; subst e3; subst e4
      simp only [rotateCCW, paintAt, isNull_null, Bool.and_self, eq_self_iff_true, if_true]
      by_cases hc : ul = (w - 1 - y, x)
      · rw [if_pos hc, if_pos (show (ul.2, w - ul.1 - 1) = (x, y) from by
          rw [hc]
          exact Prod.ext (by omega) (by omega))]
      · rw [if_neg hc, if_neg (show ¬ (ul.2, w - ul.1 - 1) = (x, y) from fun he => by
          apply hc
          have hx1 : ul.2 = x := congrArg Prod.fst he
          have hy1 : w - ul.1 - 1 = y := congrArg Prod.snd he
          exact Prod.ext (by omega) (by omega))]
    · rw [Bool.not_eq_true] at hL
      have htest : (isNull (rotateCCW w ne) && isNull (rotateCCW w se) &&
          isNull (rotateCCW w nw) && isNull (rotateCCW w sw)) =
          (isNull nw && isNull ne && isNull sw && isNull se) := by
        rw [isNull_rot, isNull_rot, isNull_rot, isNull_rot]
        exact and_perm_rot (isNull nw) (isNull ne) (isNull sw) (isNull se)
      have hspc := singlePixel_children hL hsp
      have hcnt' : countPt (w - 1 - y, x) (leafULs nw) +
          countPt (w - 1 - y, x) (leafULs ne) +
          countPt (w - 1 - y, x) (leafULs sw) +
          countPt (w - 1 - y, x) (leafULs se) ≤ 1 := by
        have : leafULs (NodeP.node ul lr a nw ne sw se) =
            leafULs nw ++ leafULs ne ++ leafULs sw ++ leafULs se := by
          simp only [leafULs, hL, Bool.false_eq_true, if_false]
        rw [this, countPt_append, countPt_append, countPt_append] at hcnt
        omega
      simp only [rotateCCW, paintAt, htest, hL, Bool.false_eq_true, if_false]
      rw [ih3 hbsw hspc.2.2.1 x y hy (by omega), ih1 hbnw hspc.1 x y hy (by omega),
        ih4 hbse hspc.2.2.2 x y hy (by omega), ih2 hbne hspc.2.1 x y hy (by omega)]
      by_cases k1 : countPt (w - 1 - y, x) (leafULs nw) = 0 <;>
        by_cases k2 : countPt (w - 1 - y, x) (leafULs ne) = 0 <;>
          by_cases k3 : countPt (w - 1 - y, x) (leafULs sw) = 0 <;>
            by_cases k4 : countPt (w - 1 - y, x) (leafULs se) = 0
      all_goals try (exfalso; omega)
      all_goals try rw [paint_none nw (w - 1 - y, x) k1]
      all_goals try rw [paint_none ne (w - 1 - y, x) k2]
      all_goals try rw [paint_none sw (w - 1 - y, x) k3]
      all_goals try rw [paint_none se (w - 1 - y, x) k4]
      all_goals simp only [opt_none_orElse, opt_orElse_none]

/-! ### Claim C8: rotate periodicity and the single-rotation pixel map -/

/-- C8 (amended): on every in-bounds tree (pruned or not), four
`RotateCCW` calls restore the tree exactly — so the rendered raster is
identical at every scale and background — and one call swaps the stored
dimensions.  On in-bounds trees whose leaves are single pixels painted at
pairwise distinct positions (all freshly built trees), one rotation
additionally satisfies `render(x, y) == original_render(width - 1 - y, x)`
with `width` the pre-rotation width; for pruned trees that pixel map fails
because of the render bug of C1 (see the counterexample). -/
theorem C8_rotate_periodicity (T : QTree)
    (hb : boundedNodes T.width T.height T.root = true) :
    (T.RotateCCW.width = T.height ∧ T.RotateCCW.height = T.width) ∧
    T.RotateCCW.RotateCCW.RotateCCW.RotateCCW = T ∧
    (∀ (bg : RGBAPixel) (scale x y : Nat),
      (T.RotateCCW.RotateCCW.RotateCCW.RotateCCW.Render bg scale).2 x y =
        (T.Render bg scale).2 x y) ∧
    (singlePixelLeaves T.root = true → nodupPts (leafULs T.root) = true →
      ∀ (bg : RGBAPixel) (x y : Nat), y < T.width →
        (T.RotateCCW.Render bg 1).2 x y = (T.Render bg 1).2 (T.width - 1 - y) x) := by
  have hroot : T.RotateCCW.RotateCCW.RotateCCW.RotateCCW = T := by
    show QTree.mk (rotateCCW T.height (rotateCCW T.width (rotateCCW T.height
      (rotateCCW T.width T.root)))) T.width T.height = T
    rw [rot_four_eq T.root hb]
  refine ⟨⟨rfl, rfl⟩, hroot, ?_, ?_⟩
  · intro bg scale x y
    rw [hroot]
  · intro hsp hnd bg x y hy
    simp only [QTree.Render, QTree.RotateCCW]
    rw [render_paint, render_paint,
      paint_rot T.width T.height T.root hb hsp x y hy
        (nodupPts_count (leafULs T.root) hnd (T.width - 1 - y, x))]

/-- C8 counterexample: on the concrete 2×2 build, the pixel map claimed by
the spec, `render(x, y) == original_render(y, height - 1 - x)`, fails at
`(0, 0)` (the claimed map is a clockwise rotation, the code rotates
counter-clockwise); and for pruned trees even the corrected
counter-clockwise map `render(x, y) == original_render(width - 1 - y, x)`
fails — on the 2×2 all-black build pruned at tolerance 0, the rotated
render at `(0, 1)` is the canvas colour while the original render at
`(0, 0)` is black — because `renderNode` paints only one pixel of the
collapsed leaf's rectangle. -/
theorem C8_counterexample :
    ((QTree.ofImage img2x2c 2 2).RotateCCW.Render whitePix 1).2 0 0 ≠
      ((QTree.ofImage img2x2c 2 2).Render whitePix 1).2 0
        ((QTree.ofImage img2x2c 2 2).RotateCCW.height - 1 - 0) ∧
    (1 : Nat) < ((QTree.ofImage blackImg 2 2).Prune sqDist 0).width ∧
    (((QTree.ofImage blackImg 2 2).Prune sqDist 0).RotateCCW.Render whitePix 1).2 0 1 ≠
      (((QTree.ofImage blackImg 2 2).Prune sqDist 0).Render whitePix 1).2 (2 - 1 - 1) 0 := by
  refine ⟨by decide, ?_, ?_⟩ <;>
    norm_num [QTree.ofImage, QTree.Prune, QTree.RotateCCW, QTree.Render, buildNode,
      rectFuel, buildNodeF, pruneSt, leavesUnderTol, rotateCCW, renderNode, draw, isNull,
      avgOf, sqDist, blackImg, blackPix, whitePix]

/-- C8 witness: the four-rotation render identity at scale 2 and the
amended pixel map, both on the concrete 2×2 build. -/
theorem C8_witness :
    (boundedNodes 2 2 (QTree.ofImage img2x2c 2 2).root = true ∧
     singlePixelLeaves (QTree.ofImage img2x2c 2 2).root = true ∧
     nodupPts (leafULs (QTree.ofImage img2x2c 2 2).root) = true ∧ (0 : Nat) < 2) ∧
    ((QTree.ofImage
        img2x2c 2 2).RotateCCW.RotateCCW.RotateCCW.RotateCCW.Render whitePix 2).2 1 1 =
      ((QTree.ofImage img2x2c 2 2).Render whitePix 2).2 1 1 ∧
    ((QTree.ofImage img2x2c 2 2).RotateCCW.Render whitePix 1).2 0 0 =
      ((QTree.ofImage img2x2c 2 2).Render whitePix 1).2 (2 - 1 - 0) 0 :=
  ⟨⟨by decide, by decide, by decide, by decide⟩,
    (C8_rotate_periodicity (QTree.ofImage img2x2c 2 2) (by decide)).2.2.1 whitePix 2 1 1,
    (C8_rotate_periodicity (QTree.ofImage img2x2c 2 2) (by decide)).2.2.2 (by decide)
      (by decide) whitePix 0 0 (by decide)⟩

/-! ### Claim C5: the per-node averaging formula -/

theorem contribR_build (img : Img) (g : Nat) (ul lr : Nat × Nat) :
    contribR (buildNodeF img (g + 1) ul lr) =
      (avgOf (buildNodeF img (g + 1) ul lr)).r *
        (((lr.1 - ul.1 + 1) * (lr.2 - ul.2 + 1) : Nat) : Int) := by
  by_cases h : ul = lr <;> simp [buildNodeF, h, contribR, avgOf]

theorem contribG_build (img : Img) (g : Nat) (ul lr : Nat × Nat) :
    contribG (buildNodeF img (g + 1) ul lr) =
      (avgOf (buildNodeF img (g + 1) ul lr)).g *
        (((lr.1 - ul.1 + 1) * (lr.2 - ul.2 + 1) : Nat) : Int) := by
  by_cases h : ul = lr <;> simp [buildNodeF, h, contribG, avgOf]

theorem contribB_build (img : Img) (g : Nat) (ul lr : Nat × Nat) :
    contribB (buildNodeF img (g + 1) ul lr) =
      (avgOf (buildNodeF img (g + 1) ul lr)).b *
        (((lr.1 - ul.1 + 1) * (lr.2 - ul.2 + 1) : Nat) : Int) := by
  by_cases h : ul = lr <;> simp [buildNodeF, h, contribB, avgOf]

theorem contribA_build (img : Img) (g : Nat) (ul lr : Nat × Nat) :
    contribA (buildNodeF img (g + 1) ul lr) =
      (avgOf (buildNodeF img (g + 1) ul lr)).a *
        (((lr.1 - ul.1 + 1) * (lr.2 - ul.2 + 1) : Nat) : ℚ) := by
  by_cases h : ul = lr <;> simp [buildNodeF, h, contribA, avgOf]

theorem contribR_null : contribR NodeP.null = 0 := rfl

theorem contribG_null : contribG NodeP.null = 0 := rfl

theorem contribB_null : contribB NodeP.null = 0 := rfl

theorem contribA_null : contribA NodeP.null = 0 := rfl

theorem buildF_avgOK (img : Img) : ∀ (f : Nat) (ul lr : Nat × Nat),
    (lr.1 - ul.1) + (lr.2 - ul.2) < f → ul.1 ≤ lr.1 → ul.2 ≤ lr.2 →
    avgOK (buildNodeF img f ul lr) = true := by
  intro f
  induction f with
  | zero => intro ul lr hf h1 h2; omega
  | succ f ih =>
    intro ul lr hf h1 h2
    by_cases heq : ul = lr
    · subst heq
      simp [buildNodeF, avgOK, isNull_null]
    · by_cases hx : lr.1 = ul.1
      · have hy : ul.2 ≠ lr.2 := by
          intro hc
          exact heq (Prod.ext (hx.symm) hc)
        simp only [buildNodeF, if_neg heq, if_pos hx]
        obtain ⟨g, rfl⟩ : ∃ g, f = g + 1 := ⟨f - 1, by omega⟩
        simp only [avgOK, buildF_not_null, isNull_null, contribR_null, contribG_null, contribB_null, contribA_null, contribR_build, contribG_build, contribB_build, contribA_build,
          Bool.true_and, Bool.and_true, Bool.false_and, Bool.and_false,
          Bool.false_eq_true, if_false, eq_self_iff_true, if_true, Bool.and_eq_true,
          decide_eq_true_eq, add_zero, zero_add]
        exact ⟨⟨⟨⟨⟨trivial, trivial⟩, trivial⟩, trivial⟩,
          ih ul ((ul.1 + lr.1) / 2, (ul.2 + lr.2) / 2) (by omega) (by omega) (by omega)⟩,
          ih (ul.1, (ul.2 + lr.2) / 2 + 1) ((ul.1 + lr.1) / 2, lr.2)
            (by omega) (by omega) (by omega)⟩
      · by_cases hy : ul.2 = lr.2
        · simp only [buildNodeF, if_neg heq, if_neg hx, if_neg (not_not_intro hy)]
          obtain ⟨g, rfl⟩ : ∃ g, f = g + 1 := ⟨f - 1, by omega⟩
          simp only [avgOK, buildF_not_null, isNull_null, contribR_null, contribG_null, contribB_null, contribA_null, contribR_build, contribG_build, contribB_build, contribA_build,
            Bool.true_and, Bool.and_true, Bool.false_and, Bool.and_false,
            Bool.false_eq_true, if_false, eq_self_iff_true, if_true, Bool.and_eq_true,
            decide_eq_true_eq, add_zero, zero_add]
          exact ⟨⟨⟨⟨⟨trivial, trivial⟩, trivial⟩, trivial⟩,
            ih ul ((ul.1 + lr.1) / 2, (ul.2 + lr.2) / 2) (by omega) (by omega) (by omega)⟩,
            ih ((ul.1 + lr.1) / 2 + 1, ul.2) (lr.1, (ul.2 + lr.2) / 2)
              (by omega) (by omega) (by omega)⟩
        · simp only [buildNodeF, if_neg heq, if_neg hx, if_pos hy]
          obtain ⟨g, rfl⟩ : ∃ g, f = g + 1 := ⟨f - 1, by omega⟩
          simp only [avgOK, buildF_not_null, isNull_null, contribR_null, contribG_null, contribB_null, contribA_null, contribR_build, contribG_build, contribB_build, contribA_build,
            Bool.true_and, Bool.and_true, Bool.false_and, Bool.and_false,
            Bool.false_eq_true, if_false, eq_self_iff_true, if_true, Bool.and_eq_true,
            decide_eq_true_eq, add_zero, zero_add]
          exact ⟨⟨⟨⟨⟨⟨⟨trivial, trivial⟩, trivial⟩, trivial⟩,
            ih ul ((ul.1 + lr.1) / 2, (ul.2 + lr.2) / 2) (by omega) (by omega) (by omega)⟩,
            ih ((ul.1 + lr.1) / 2 + 1, ul.2) (lr.1, (ul.2 + lr.2) / 2)
              (by omega) (by omega) (by omega)⟩,
            ih (ul.1, (ul.2 + lr.2) / 2 + 1) ((ul.1 + lr.1) / 2, lr.2)
              (by omega) (by omega) (by omega)⟩,
            ih ((ul.1 + lr.1) / 2 + 1, (ul.2 + lr.2) / 2 + 1) lr
              (by omega) (by omega) (by omega)⟩

/-- C5: in every built tree, every internal node's `avg` is, per channel,
`sum(child.avg_channel * child.area) / totalArea` over the present
children, where `child.area` is the area of the child's rectangle,
`totalArea` the area of the node's own rectangle, the three integer
channels are computed with truncation toward zero and the alpha channel
with exact division (`avgOK` checks exactly this at every internal node). -/
theorem C5_avg_formula (img : Img) (w h : Nat) (hw : 1 ≤ w) (hh : 1 ≤ h) :
    avgOK (QTree.ofImage img w h).root = true := by
  simp only [QTree.ofImage, buildNode, rectFuel]
  exact buildF_avgOK img (w - 1 - 0 + (h - 1 - 0) + 1) (0, 0) (w - 1, h - 1)
    (by omega) (by omega) (by omega)

/-- C5 witness: the averaging formula on the concrete 2×2 build. -/
theorem C5_witness :
    (1 ≤ 2 ∧ 1 ≤ 2) ∧ avgOK (QTree.ofImage img2x2c 2 2).root = true :=
  ⟨⟨by decide, by decide⟩, C5_avg_formula img2x2c 2 2 (by decide) (by decide)⟩

/-! ### Claim C4: recursive averages versus the brute-force scan -/

theorem build_avg_1x2 (img : Img) (a b : Nat) :
    avgOf (buildNode img (a, b) (a, b + 1)) = bruteAvg img (a, b) (a, b + 1) := by
  have hf : rectFuel (a, b) (a, b + 1) = 2 := by
    simp [rectFuel]
  rw [buildNode, hf]
  have hne : ((a, b) : Nat × Nat) ≠ (a, b + 1) :=
    fun hc => absurd (congrArg Prod.snd hc) (by omega)
  simp only [buildNodeF, if_neg hne]
  have e1 : (a + a) / 2 = a := by omega
  have e2 : (b + (b + 1)) / 2 = b := by omega
  simp only [e1, e2]
  norm_num [buildNodeF, avgOf, isNull, bruteAvg, rectPts, List.range_succ]

theorem build_avg_2x1 (img : Img) (a b : Nat) :
    avgOf (buildNode img (a, b) (a + 1, b)) = bruteAvg img (a, b) (a + 1, b) := by
  have hf : rectFuel (a, b) (a + 1, b) = 2 := by
    simp [rectFuel]
  rw [buildNode, hf]
  have hne : ((a, b) : Nat × Nat) ≠ (a + 1, b) :=
    fun hc => absurd (congrArg Prod.fst hc) (by omega)
  have hxx : ¬((a + 1 : Nat) = a) := by omega
  simp only [buildNodeF, if_neg hne]
  have e1 : (a + (a + 1)) / 2 = a := by omega
  have e2 : (b + b) / 2 = b := by omega
  simp only [e1, e2]
  norm_num [buildNodeF, avgOf, isNull, bruteAvg, rectPts, List.range_succ, hxx]

set_option maxHeartbeats 1600000 in
theorem build_avg_2x2 (img : Img) (a b : Nat) :
    avgOf (buildNode img (a, b) (a + 1, b + 1)) = bruteAvg img (a, b) (a + 1, b + 1) := by
  have hf : rectFuel (a, b) (a + 1, b + 1) = 3 := by
    simp [rectFuel]
  rw [buildNode, hf]
  have hne : ((a, b) : Nat × Nat) ≠ (a + 1, b + 1) :=
    fun hc => absurd (congrArg Prod.fst hc) (by omega)
  have hxx : ¬((a + 1 : Nat) = a) := by omega
  have hyy : (b : Nat) ≠ b + 1 := by omega
  simp only [buildNodeF, if_neg hne]
  have e1 : (a + (a + 1)) / 2 = a := by omega
  have e2 : (b + (b + 1)) / 2 = b := by omega
  simp only [e1, e2]
  norm_num [buildNodeF, avgOf, isNull, bruteAvg, rectPts, List.range_succ, hxx, hyy]
  refine ⟨?_, ?_, ?_, ?_⟩ <;> (congr 1; ring)

/-- C4 (amended): for every node whose children are all leaves — the build
of any rectangle of width and height at most 2 that is not a single pixel —
`avg` equals the brute-force per-channel mean of the node's source pixels
scanned directly from the raster (integer channels truncated, alpha
exact).  For deeper nodes the recursive truncated averaging can differ
from the brute-force scan, and the concrete 2×2 scenario root average is
`(127, 127, 63, 1.0)` (see the counterexample). -/
theorem C4_avg_small_rect (img : Img) (ul lr : Nat × Nat)
    (h1 : ul.1 ≤ lr.1) (h2 : ul.2 ≤ lr.2) (hne : ul ≠ lr)
    (hw : lr.1 ≤ ul.1 + 1) (hh : lr.2 ≤ ul.2 + 1) :
    avgOf (buildNode img ul lr) = bruteAvg img ul lr := by
  obtain ⟨a, b⟩ := ul
  obtain ⟨c, d⟩ := lr
  have hnc : ¬(a = c ∧ b = d) := by
    intro hcc
    exact hne (by rw [hcc.1, hcc.2])
  have hcase : (c = a ∧ d = b + 1) ∨ (c = a + 1 ∧ d = b) ∨ (c = a + 1 ∧ d = b + 1) := by
    simp only [Prod.fst, Prod.snd] at h1 h2 hw hh
    omega
  rcases hcase with ⟨hc, hd⟩ | ⟨hc, hd⟩ | ⟨hc, hd⟩
  · rw [hc, hd]
    exact build_avg_1x2 img a b
  · rw [hc, hd]
    exact build_avg_2x1 img a b
  · rw [hc, hd]
    exact build_avg_2x2 img a b

/-- C4 counterexample: the concrete 2×2 scenario root average is
`(127, 127, 63, ·)` — the blue channel truncates 255/4 to 63, not the
claimed 64 — and on the 1×4 column with red values 1, 0, 3, 0 the root's
recursive truncated average has red channel 0 while the brute-force
truncated mean of the raster has red channel 1, refuting the claim for
nodes with non-leaf children. -/
theorem C4_counterexample :
    (avgOf (QTree.ofImage img2x2c 2 2).root).r = 127 ∧
    (avgOf (QTree.ofImage img2x2c 2 2).root).g = 127 ∧
    (avgOf (QTree.ofImage img2x2c 2 2).root).b = 63 ∧
    (63 : Int) ≠ 64 ∧
    (avgOf (QTree.ofImage strip14 1 4).root).r = 0 ∧
    (bruteAvg strip14 (0, 0) (0, 3)).r = 1 ∧
    (0 : Int) ≠ 1 := by decide

/-- C4 witness: the amended statement on the concrete 2×2 build. -/
theorem C4_witness :
    (((0, 0) : Nat × Nat).1 ≤ ((1, 1) : Nat × Nat).1 ∧
     ((0, 0) : Nat × Nat).2 ≤ ((1, 1) : Nat × Nat).2 ∧
     ((0, 0) : Nat × Nat) ≠ ((1, 1) : Nat × Nat) ∧
     ((1, 1) : Nat × Nat).1 ≤ ((0, 0) : Nat × Nat).1 + 1 ∧
     ((1, 1) : Nat × Nat).2 ≤ ((0, 0) : Nat × Nat).2 + 1) ∧
    avgOf (buildNode img2x2c (0, 0) (1, 1)) = bruteAvg img2x2c (0, 0) (1, 1) :=
  ⟨⟨by decide, by decide, by decide, by decide, by decide⟩,
    C4_avg_small_rect img2x2c (0, 0) (1, 1) (by decide) (by decide) (by decide)
      (by decide) (by decide)⟩

/-! ### Claims C1 and C2: rendering of pruned trees at the failing inputs -/

/-- C1 at the failing input: build the 1×2 all-black image, prune at
tolerance 0 (the root collapses to a single leaf spanning the whole
column), render at scale 1 onto a white canvas.  The collapsed leaf's
rectangle is `[(0,0), (0,1)]`, yet the code draws only a `1 × 1` block at
`upLeft`, so pixel `(0, 1)` still holds the canvas colour instead of the
leaf's average. -/
theorem C1_failing_render :
    ((QTree.ofImage blackImg 1 2).Prune sqDist 0).root =
      NodeP.node (0, 0) (0, 1) blackPix .null .null .null .null ∧
    (((QTree.ofImage blackImg 1 2).Prune sqDist 0).Render whitePix 1).2 0 1 = whitePix ∧
    whitePix ≠ blackPix := by
  refine ⟨?_, ?_, by decide⟩ <;>
    norm_num [QTree.ofImage, QTree.Prune, QTree.Render, buildNode, rectFuel, buildNodeF,
      pruneSt, leavesUnderTol, renderNode, draw, isNull, avgOf, sqDist, blackImg, blackPix,
      whitePix]

/-- C2 at the failing input: build the 2×2 all-black image, prune at
tolerance 0 (the root collapses), render at scale 1 onto a white canvas:
pixel `(1, 1)` was black before pruning and is the white canvas colour
after, so the per-pixel distance after `Prune(0)` exceeds the tolerance 0. -/
theorem C2_failing_prune_render :
    (0 : ℚ) ≤ 0 ∧
    sqDist (((QTree.ofImage blackImg 2 2).Render whitePix 1).2 1 1)
      ((((QTree.ofImage blackImg 2 2).Prune sqDist 0).Render whitePix 1).2 1 1) > 0 := by
  constructor
  · norm_num
  · norm_num [QTree.ofImage, QTree.Prune, QTree.Render, buildNode, rectFuel, buildNodeF,
      pruneSt, leavesUnderTol, renderNode, draw, isNull, avgOf, sqDist, blackImg, blackPix,
      whitePix]

/-! ### The bounds invariant is preserved by prune, flip and rotate -/

theorem pruneSt_bounded (dist : RGBAPixel → RGBAPixel → ℚ) (tol : ℚ) (w h : Nat) :
    ∀ t : NodeP, boundedNodes w h t = true →
    boundedNodes w h (pruneSt dist tol t) = true := by
  intro t
  induction t with
  | null => intro _; rfl
  | node ul lr a nw ne sw se ih1 ih2 ih3 ih4 =>
    intro hb
    obtain ⟨h1, h2, h3, h4, b1, b2, b3, b4⟩ := boundedNodes_node hb
    by_cases hL : (isNull nw && isNull ne && isNull sw && isNull se) = true
    · simp only [pruneSt, if_pos hL]
      exact hb
    · rw [Bool.not_eq_true] at hL
      by_cases hT : leavesUnderTol dist tol a (.node ul lr a nw ne sw se) = true
      · simp only [pruneSt, hL, Bool.false_eq_true, if_false, if_pos hT]
        simp only [boundedNodes, Bool.and_eq_true, decide_eq_true_eq]
        exact ⟨⟨⟨⟨⟨⟨⟨h1, h2⟩, h3⟩, h4⟩, trivial⟩, trivial⟩, trivial⟩, trivial⟩
      · simp only [pruneSt, hL, Bool.false_eq_true, if_false, if_neg hT]
        simp only [boundedNodes, Bool.and_eq_true, decide_eq_true_eq]
        exact ⟨⟨⟨⟨⟨⟨⟨h1, h2⟩, h3⟩, h4⟩, ih1 b1⟩, ih2 b2⟩, ih3 b3⟩, ih4 b4⟩

theorem flip_bounded (w h : Nat) : ∀ t : NodeP, boundedNodes w h t = true →
    boundedNodes w h (flipHorizontal w t) = true := by
  intro t
  induction t with
  | null => intro _; rfl
  | node ul lr a nw ne sw se ih1 ih2 ih3 ih4 =>
    intro hb
    obtain ⟨h1, h2, h3, h4, b1, b2, b3, b4⟩ := boundedNodes_node hb
    rw [flip_node_eq h1 h3]
    simp only [boundedNodes, Bool.and_eq_true, decide_eq_true_eq]
    exact ⟨⟨⟨⟨⟨⟨⟨by omega, by omega⟩, by omega⟩, by omega⟩, ih2 b2⟩, ih1 b1⟩,
      ih4 b4⟩, ih3 b3⟩

theorem rot_bounded (w h : Nat) : ∀ t : NodeP, boundedNodes w h t = true →
    boundedNodes h w (rotateCCW w t) = true := by
  intro t
  induction t with
  | null => intro _; rfl
  | node ul lr a nw ne sw se ih1 ih2 ih3 ih4 =>
    intro hb
    obtain ⟨h1, h2, h3, h4, b1, b2, b3, b4⟩ := boundedNodes_node hb
    simp only [rotateCCW, boundedNodes, Bool.and_eq_true, decide_eq_true_eq]
    exact ⟨⟨⟨⟨⟨⟨⟨by omega, by omega⟩, by omega⟩, by omega⟩, ih2 b2⟩, ih4 b4⟩,
      ih1 b1⟩, ih3 b3⟩
